import Mathlib

/-!
Shallow embedding of `src/pix.py` (wilton_pixelate): a Streamlit app that
turns an uploaded image into pixel art.  The core logic embedded here:

* the dimension resolver (lines 42-100): preset / slider / number-input
  values with widget bounds 16..512 for pixel dimensions and 1..20 for the
  display multiplier, and `display = min(pixel * multiplier, 1300)`;
* `create_perfect_pixel_art` (lines 106-118): an area-averaging downsample
  (`cv2.resize` with INTER_AREA) followed by a nearest-neighbor upsample
  (`cv2.resize` with INTER_NEAREST), or a copy when the display size equals
  the pixel-art size;
* the channel check after decode (lines 22-24), which indexes
  `img_array.shape[2]` unconditionally and converts RGBA to RGB;
* the size-reduction metric (line 178).

Pixel values are modelled as exact rationals (the library's fixed/floating
point resampling arithmetic is embedded as exact area-weighted averages).
-/

/-- A 3-channel image buffer: `pix y x c` is the value of channel `c` of the
pixel at row `y`, column `x`; coordinates outside `height × width` carry junk
values.  This models the RGB numpy arrays flowing through
`create_perfect_pixel_art`. -/
structure Img where
  height : ℕ
  width : ℕ
  pix : ℕ → ℕ → Fin 3 → ℚ

/-- Overlap length of the half-open interval `[a, b)` with the unit source
cell `[k, k+1)`: the area weight used by area-averaging resampling. -/
def ov (a b : ℚ) (k : ℕ) : ℚ := max 0 (min b (k + 1) - max a k)

/-- Length of `[0, t) ∩ [k, k+1)`; helper for summing `ov` weights. -/
def len (t : ℚ) (k : ℕ) : ℚ := max 0 (min (t - k) 1)

/-- `cv2.resize(img, (w, h), interpolation=cv2.INTER_AREA)` (line 110):
each output pixel is the average of the source pixels mapping into its
back-projected cell, weighted by overlap area.  Output pixel `(i, j)` covers
the source region `[j*sx, (j+1)*sx) × [i*sy, (i+1)*sy)` where
`sx = width/w`, `sy = height/h`, and its value is the overlap-weighted sum
divided by the cell area `sx * sy`. -/
def resizeArea (img : Img) (w h : ℕ) : Img where
  height := h
  width := w
  pix := fun i j c =>
    (∑ r in Finset.range img.height, ∑ k in Finset.range img.width,
        ov ((i : ℚ) * ((img.height : ℚ) / h)) (((i : ℚ) + 1) * ((img.height : ℚ) / h)) r *
          (ov ((j : ℚ) * ((img.width : ℚ) / w)) (((j : ℚ) + 1) * ((img.width : ℚ) / w)) k *
            img.pix r k c)) /
      (((img.width : ℚ) / w) * ((img.height : ℚ) / h))

/-- `cv2.resize(img, (w, h), interpolation=cv2.INTER_NEAREST)` (line 114):
output pixel `(i, j)` copies the single source pixel at
`(⌊i * height / h⌋, ⌊j * width / w⌋)`, clamped into the source bounds. -/
def resizeNearest (img : Img) (w h : ℕ) : Img where
  height := h
  width := w
  pix := fun i j =>
    img.pix (min (i * img.height / h) (img.height - 1))
      (min (j * img.width / w) (img.width - 1))

/-- `create_perfect_pixel_art` (lines 106-118): downsample to the exact
pixel-art size with area interpolation; then, if the display size differs,
upsample with nearest neighbor, else return a copy of the stage-1 result
(`.copy()` is embedded as the identity on the mathematical buffer). -/
def create_perfect_pixel_art (img : Img) (target_width target_height display_width display_height : ℕ) :
    Img × Img :=
  let pixel_art := resizeArea img target_width target_height
  let display_img :=
    if display_width ≠ target_width ∨ display_height ≠ target_height then
      resizeNearest pixel_art display_width display_height
    else
      pixel_art
  (pixel_art, display_img)

/-- A decoded numpy array as produced by `np.array(Image.open(...))`
(line 20): its shape tuple (2 entries for a grayscale decode, 3 for a
color decode) and its values, indexed row, column, channel. -/
structure RawImg where
  shape : List ℕ
  pix : ℕ → ℕ → ℕ → ℚ

/-- `cv2.cvtColor(img_array, cv2.COLOR_RGBA2RGB)` (line 24): channels 0..2
are kept unchanged and the alpha channel is dropped (no compositing); the
shape's channel entry becomes 3. -/
def rgba2rgb (a : RawImg) : RawImg where
  shape := a.shape.take 2 ++ [3]
  pix := a.pix

/-- Lines 22-24: `if img_array.shape[2] == 4: img_array = cv2.cvtColor(...)`.
The check indexes `shape[2]` unconditionally; `none` models the IndexError
raised when the decoded array is 2-dimensional. -/
def flattenAlpha (a : RawImg) : Option RawImg :=
  match a.shape[2]? with
  | none => none
  | some c => some (if c = 4 then rgba2rgb a else a)

/-- View a (3-channel) decoded array as the `Img` fed to the transform. -/
def toImg (a : RawImg) : Img where
  height := a.shape.headD 0
  width := (a.shape.drop 1).headD 0
  pix := fun y x c => a.pix y x (c : ℕ)

/-- The per-upload pipeline relevant to the transform: channel check /
alpha flattening (lines 22-24), then `create_perfect_pixel_art`
(lines 121-123). -/
def processUpload (a : RawImg) (tw th dw dh : ℕ) : Option (Img × Img) :=
  (flattenAlpha a).map fun b => create_perfect_pixel_art (toImg b) tw th dw dh

/-- Widget bound enforcement for pixel dimensions: the sliders and number
inputs (lines 50-51, 71-86) declare `min_value=16, max_value=512`, so an
out-of-range value resolves to the nearest bound. -/
def clampDim (v : ℤ) : ℤ := min (max v 16) 512

/-- Multiplier slider bounds (lines 90-97): `min_value=1, max_value=20`. -/
def clampMult (v : ℤ) : ℤ := min (max v 1) 20

/-- Lines 63-64 and 99-100: a display dimension is the pixel dimension times
the multiplier, capped at 1300. -/
def displayDim (p mult : ℤ) : ℤ := min (p * mult) 1300

/-- Simple-mode preset selector (lines 44-59): a literal size pair, or the
Custom sliders. -/
inductive Preset where
  | custom (w h : ℤ)
  | tiny
  | small
  | medium
  | large

/-- The `size_map` literals (lines 53-58) and the Custom sliders with their
bounds (lines 50-51). -/
def presetSize : Preset → ℤ × ℤ
  | .custom w h => (clampDim w, clampDim h)
  | .tiny => (32, 32)
  | .small => (64, 64)
  | .medium => (128, 128)
  | .large => (256, 256)

/-- The two control modes (line 40): Simple with a preset, Advanced with
explicit dimensions and a multiplier. -/
inductive Mode where
  | simple (p : Preset)
  | advanced (w h mult : ℤ)

/-- The four resolved dimensions. -/
structure TargetSpec where
  pixelWidth : ℤ
  pixelHeight : ℤ
  displayWidth : ℤ
  displayHeight : ℤ

/-- The dimension resolver (lines 42-100): Simple mode uses the preset (or
Custom slider) size and a fixed multiplier of 4 (lines 63-64); Advanced mode
uses the two number inputs and the multiplier slider (lines 99-100). -/
def resolveSpec : Mode → TargetSpec
  | .simple p =>
      let wh := presetSize p
      ⟨wh.1, wh.2, displayDim wh.1 4, displayDim wh.2 4⟩
  | .advanced w h mult =>
      let pw := clampDim w
      let ph := clampDim h
      let m := clampMult mult
      ⟨pw, ph, displayDim pw m, displayDim ph m⟩

/-- Line 178: `reduction_factor = (orig_width * orig_height) / (pixel_width * pixel_height)`. -/
def reduction_factor (ow oh pw ph : ℕ) : ℚ := ((ow : ℚ) * oh) / ((pw : ℚ) * ph)

/-- Line 179: the metric is rendered with one decimal place
(`f"{reduction_factor:.1f}x smaller"`); embedded as the number of tenths
after rounding. -/
def reductionTenths (ow oh pw ph : ℕ) : ℤ := round (10 * reduction_factor ow oh pw ph)

/-- A uniform (solid-color) source image. -/
def uniformImg (h w : ℕ) (v : Fin 3 → ℚ) : Img := ⟨h, w, fun _ _ => v⟩

/-! ### Helper lemmas about area weights -/

lemma ov_eq_len (a b : ℚ) (k : ℕ) (hab : a ≤ b) : ov a b k = len b k - len a k := by
  simp only [ov, len, max_def, min_def]
  split_ifs <;> linarith

lemma sum_len (t : ℚ) (ht : 0 ≤ t) (n : ℕ) :
    ∑ k in Finset.range n, len t k = min t n := by
  induction n with
  | zero => simpa using (min_eq_right ht).symm
  | succ n ih =>
    have hn : (0 : ℚ) ≤ n := Nat.cast_nonneg n
    rw [Finset.sum_range_succ, ih]
    simp only [len, max_def, min_def]
    push_cast
    split_ifs <;> linarith

lemma sum_ov (a b : ℚ) (n : ℕ) (h0 : 0 ≤ a) (hab : a ≤ b) (hbn : b ≤ n) :
    ∑ k in Finset.range n, ov a b k = b - a := by
  have hb0 : 0 ≤ b := le_trans h0 hab
  calc
    ∑ k in Finset.range n, ov a b k
        = ∑ k in Finset.range n, (len b k - len a k) :=
      Finset.sum_congr rfl fun k _ => ov_eq_len a b k hab
    _ = (∑ k in Finset.range n, len b k) - ∑ k in Finset.range n, len a k :=
      Finset.sum_sub_distrib
    _ = min b n - min a n := by rw [sum_len b hb0 n, sum_len a h0 n]
    _ = b - a := by rw [min_eq_left hbn, min_eq_left (le_trans hab hbn)]

/-! ### Claim theorems -/

/-- Claim C1: for every 3-channel source image and positive target
dimensions, the transform's first output has exactly
`pixelWidth × pixelHeight` pixels and its second output has exactly
`displayWidth × displayHeight` pixels. -/
theorem create_perfect_pixel_art_dims (img : Img) (tw th dw dh : ℕ)
    (htw : 0 < tw) (hth : 0 < th) (hdw : 0 < dw) (hdh : 0 < dh) :
    (create_perfect_pixel_art img tw th dw dh).1.width = tw ∧
      (create_perfect_pixel_art img tw th dw dh).1.height = th ∧
      (create_perfect_pixel_art img tw th dw dh).2.width = dw ∧
      (create_perfect_pixel_art img tw th dw dh).2.height = dh := by
  unfold create_perfect_pixel_art
  by_cases h : dw ≠ tw ∨ dh ≠ th
  · simp [h, resizeArea, resizeNearest]
  · push_neg at h
    simp [h.1, h.2, resizeArea]

theorem create_perfect_pixel_art_dims_witness :
    0 < 2 ∧ 0 < 3 ∧ 0 < 5 ∧ 0 < 7 ∧
      ((create_perfect_pixel_art (uniformImg 4 4 fun _ => 0) 2 3 5 7).1.width = 2 ∧
        (create_perfect_pixel_art (uniformImg 4 4 fun _ => 0) 2 3 5 7).1.height = 3 ∧
        (create_perfect_pixel_art (uniformImg 4 4 fun _ => 0) 2 3 5 7).2.width = 5 ∧
        (create_perfect_pixel_art (uniformImg 4 4 fun _ => 0) 2 3 5 7).2.height = 7) :=
  ⟨by decide, by decide, by decide, by decide,
    create_perfect_pixel_art_dims (uniformImg 4 4 fun _ => 0) 2 3 5 7
      (by decide) (by decide) (by decide) (by decide)⟩

/-- Claim C6: whenever the display size equals the pixel-art size, the
transform's display output equals its pixel-art output (the source takes the
`.copy()` branch, embedded as the identity on the buffer). -/
theorem display_copy_when_equal (img : Img) (tw th dw dh : ℕ)
    (hw : dw = tw) (hh : dh = th) :
    (create_perfect_pixel_art img tw th dw dh).2 =
      (create_perfect_pixel_art img tw th dw dh).1 := by
  subst hw
  subst hh
  simp [create_perfect_pixel_art]

theorem display_copy_when_equal_witness :
    2 = 2 ∧ 3 = 3 ∧
      (create_perfect_pixel_art (uniformImg 4 4 fun _ => 1) 2 3 2 3).2 =
        (create_perfect_pixel_art (uniformImg 4 4 fun _ => 1) 2 3 2 3).1 :=
  ⟨rfl, rfl, display_copy_when_equal (uniformImg 4 4 fun _ => 1) 2 3 2 3 rfl rfl⟩

/-- Claim C3: the dimension resolver clamps out-of-range pixel dimensions to
the nearest bound instead of failing: 8 resolves to 16 and 1000 resolves to
512, and every resolved pixel dimension lies in [16, 512]. -/
theorem resolver_clamps :
    (resolveSpec (.advanced 8 8 4)).pixelWidth = 16 ∧
      (resolveSpec (.advanced 1000 1000 4)).pixelWidth = 512 ∧
      (resolveSpec (.simple (.custom 8 1000))).pixelWidth = 16 ∧
      (resolveSpec (.simple (.custom 8 1000))).pixelHeight = 512 ∧
      ∀ w h m : ℤ,
        (16 ≤ (resolveSpec (.advanced w h m)).pixelWidth ∧
          (resolveSpec (.advanced w h m)).pixelWidth ≤ 512) ∧
        (16 ≤ (resolveSpec (.advanced w h m)).pixelHeight ∧
          (resolveSpec (.advanced w h m)).pixelHeight ≤ 512) := by
  refine ⟨by decide, by decide, by decide, by decide, fun w h m => ?_⟩
  simp only [resolveSpec, clampDim]
  omega

/-- Claim C4: the resolver sets `displayWidth = min(pixelWidth * multiplier,
1300)` and `displayHeight = min(pixelHeight * multiplier, 1300)`, where the
multiplier is the fixed value 4 in Simple mode and the user-chosen value in
[1, 20] in Advanced mode. -/
theorem resolver_display_formula :
    (∀ p : Preset,
      (resolveSpec (.simple p)).displayWidth =
        min ((resolveSpec (.simple p)).pixelWidth * 4) 1300 ∧
      (resolveSpec (.simple p)).displayHeight =
        min ((resolveSpec (.simple p)).pixelHeight * 4) 1300) ∧
    ∀ w h m : ℤ, 1 ≤ m → m ≤ 20 →
      (resolveSpec (.advanced w h m)).displayWidth =
        min ((resolveSpec (.advanced w h m)).pixelWidth * m) 1300 ∧
      (resolveSpec (.advanced w h m)).displayHeight =
        min ((resolveSpec (.advanced w h m)).pixelHeight * m) 1300 := by
  constructor
  · intro p
    cases p <;> simp [resolveSpec, presetSize, displayDim]
  · intro w h m h1 h2
    have hm : clampMult m = m := by
      unfold clampMult
      omega
    simp [resolveSpec, displayDim, hm]

theorem resolver_display_formula_witness :
    (1 : ℤ) ≤ 7 ∧ (7 : ℤ) ≤ 20 ∧
      ((resolveSpec (.advanced 90 120 7)).displayWidth =
        min ((resolveSpec (.advanced 90 120 7)).pixelWidth * 7) 1300 ∧
      (resolveSpec (.advanced 90 120 7)).displayHeight =
        min ((resolveSpec (.advanced 90 120 7)).pixelHeight * 7) 1300) :=
  ⟨by decide, by decide, resolver_display_formula.2 90 120 7 (by decide) (by decide)⟩

/-- Claim C8: for every pixel dimension in [16, 512] and multiplier ≥ 1, the
derived display dimension is at least the pixel dimension (the 1300 cap never
pushes it below). -/
theorem display_ge_pixel (p m : ℤ) (hlo : 16 ≤ p) (hhi : p ≤ 512) (hm : 1 ≤ m) :
    p ≤ displayDim p m := by
  unfold displayDim
  refine le_min ?_ (by omega)
  exact le_mul_of_one_le_right (by omega) hm

theorem display_ge_pixel_witness :
    (16 : ℤ) ≤ 512 ∧ (512 : ℤ) ≤ 512 ∧ (1 : ℤ) ≤ 20 ∧
      (512 : ℤ) ≤ displayDim 512 20 :=
  ⟨by decide, by decide, by decide, display_ge_pixel 512 20 (by decide) (by decide) (by decide)⟩

/-- Claim C9: the size-reduction metric equals
`(origWidth * origHeight) / (pixelWidth * pixelHeight)`, reported to one
decimal place; at 1920x1080 with pixel art 90x120 it is exactly 192.0
(1920 tenths). -/
theorem reduction_metric :
    reduction_factor 1920 1080 90 120 = 192 ∧
      reductionTenths 1920 1080 90 120 = 1920 := by
  have h : reduction_factor 1920 1080 90 120 = 192 := by
    norm_num [reduction_factor]
  refine ⟨h, ?_⟩
  have h10 : 10 * reduction_factor 1920 1080 90 120 = ((1920 : ℤ) : ℚ) := by
    rw [h]
    norm_num
  rw [reductionTenths, h10, round_intCast]

/-- Claim C7: a decoded array whose third shape entry is 4 is converted to a
3-channel array before the transform runs, with channels 0..2 unchanged and
no compositing; the transform receives the flattened buffer. -/
theorem alpha_flattening (h w : ℕ) (rest : List ℕ) (p : ℕ → ℕ → ℕ → ℚ)
    (tw th dw dh : ℕ) :
    flattenAlpha ⟨h :: w :: 4 :: rest, p⟩ = some (rgba2rgb ⟨h :: w :: 4 :: rest, p⟩) ∧
      (rgba2rgb ⟨h :: w :: 4 :: rest, p⟩).shape = [h, w, 3] ∧
      (∀ y x c, (rgba2rgb ⟨h :: w :: 4 :: rest, p⟩).pix y x c = p y x c) ∧
      processUpload ⟨h :: w :: 4 :: rest, p⟩ tw th dw dh =
        some (create_perfect_pixel_art (toImg (rgba2rgb ⟨h :: w :: 4 :: rest, p⟩)) tw th dw dh) := by
  refine ⟨?_, rfl, fun _ _ _ => rfl, ?_⟩ <;>
    simp [flattenAlpha, processUpload, rgba2rgb]

/-- Claim C10: the channel check indexes `shape[2]` unconditionally, so a
2-dimensional decode (grayscale/palette) hits the IndexError (modelled as
`none`) and nothing is processed; the pipeline is total exactly for decoded
arrays with at least 3 shape entries. -/
theorem grayscale_decode_index_error :
    (∀ (h w : ℕ) (p : ℕ → ℕ → ℕ → ℚ) (tw th dw dh : ℕ),
      flattenAlpha ⟨[h, w], p⟩ = none ∧
        processUpload ⟨[h, w], p⟩ tw th dw dh = none) ∧
    ∀ a : RawImg, 3 ≤ a.shape.length → (flattenAlpha a).isSome := by
  constructor
  · intro h w p tw th dw dh
    exact ⟨rfl, rfl⟩
  · intro a ha
    rcases a with ⟨shape, p⟩
    match shape, ha with
    | s0 :: s1 :: s2 :: rest, _ => simp [flattenAlpha]

theorem grayscale_decode_index_error_witness :
    flattenAlpha ⟨[5, 7], fun _ _ _ => 0⟩ = none ∧
      3 ≤ ([5, 7, 4] : List ℕ).length ∧
      (flattenAlpha ⟨[5, 7, 4], fun _ _ _ => 0⟩).isSome :=
  ⟨(grayscale_decode_index_error.1 5 7 (fun _ _ _ => 0) 1 1 1 1).1, by decide,
    grayscale_decode_index_error.2 ⟨[5, 7, 4], fun _ _ _ => 0⟩ (by decide)⟩

lemma double_sum_ov (a1 b1 a2 b2 : ℚ) (m n : ℕ) (c : ℚ) :
    ∑ r in Finset.range m, ∑ k in Finset.range n, ov a1 b1 r * (ov a2 b2 k * c) =
      (∑ r in Finset.range m, ov a1 b1 r) * ((∑ k in Finset.range n, ov a2 b2 k) * c) := by
  calc
    ∑ r in Finset.range m, ∑ k in Finset.range n, ov a1 b1 r * (ov a2 b2 k * c)
        = ∑ r in Finset.range m, ov a1 b1 r * ((∑ k in Finset.range n, ov a2 b2 k) * c) := by
      refine Finset.sum_congr rfl fun r _ => ?_
      rw [← Finset.mul_sum, Finset.sum_mul]
    _ = (∑ r in Finset.range m, ov a1 b1 r) * ((∑ k in Finset.range n, ov a2 b2 k) * c) :=
      (Finset.sum_mul ..).symm

lemma sum_ov_cell (W t : ℕ) (x : ℕ) (hW : 0 < W) (ht : 0 < t) (hx : x < t) :
    ∑ k in Finset.range W,
      ov ((x : ℚ) * ((W : ℚ) / t)) (((x : ℚ) + 1) * ((W : ℚ) / t)) k = (W : ℚ) / t := by
  have hs : (0 : ℚ) < (W : ℚ) / t :=
    div_pos (by exact_mod_cast hW) (by exact_mod_cast ht)
  have hb : ((x : ℚ) + 1) * ((W : ℚ) / t) ≤ (W : ℚ) := by
    have h1 : ((x : ℚ) + 1) ≤ (t : ℚ) := by exact_mod_cast hx
    have h2 : ((x : ℚ) + 1) * ((W : ℚ) / t) ≤ (t : ℚ) * ((W : ℚ) / t) :=
      mul_le_mul_of_nonneg_right h1 hs.le
    have h3 : (t : ℚ) * ((W : ℚ) / t) = (W : ℚ) := by
      field_simp
    linarith
  have hsum := sum_ov ((x : ℚ) * ((W : ℚ) / t)) (((x : ℚ) + 1) * ((W : ℚ) / t)) W
    (mul_nonneg (Nat.cast_nonneg x) hs.le)
    (by nlinarith [hs.le]) hb
  rw [hsum]
  ring

/-- Claim C5: area-averaging a solid-color source returns that color
unchanged — every pixel of the transform's pixel-art output is the source's
uniform color. -/
theorem pixelArt_uniform (img : Img) (v : Fin 3 → ℚ) (tw th dw dh : ℕ)
    (huni : ∀ r k, img.pix r k = v)
    (hW : 0 < img.width) (hH : 0 < img.height) (htw : 0 < tw) (hth : 0 < th)
    (x y : ℕ) (hx : x < tw) (hy : y < th) :
    (create_perfect_pixel_art img tw th dw dh).1.pix y x = v := by
  funext c
  show (resizeArea img tw th).pix y x c = v c
  simp only [resizeArea, huni]
  rw [double_sum_ov, sum_ov_cell img.height th y hH hth hy,
    sum_ov_cell img.width tw x hW htw hx]
  have h1 : ((tw : ℚ)) ≠ 0 := Nat.cast_ne_zero.mpr htw.ne'
  have h2 : ((th : ℚ)) ≠ 0 := Nat.cast_ne_zero.mpr hth.ne'
  have h3 : ((img.width : ℚ)) ≠ 0 := Nat.cast_ne_zero.mpr hW.ne'
  have h4 : ((img.height : ℚ)) ≠ 0 := Nat.cast_ne_zero.mpr hH.ne'
  field_simp
  ring

theorem pixelArt_uniform_witness :
    (∀ r k, (uniformImg 2 3 fun _ => 5).pix r k = fun _ => 5) ∧
      0 < (uniformImg 2 3 fun _ => 5).width ∧
      0 < (uniformImg 2 3 fun _ => 5).height ∧ 0 < 2 ∧ 0 < 1 ∧ 1 < 2 ∧ 0 < 1 ∧
      (create_perfect_pixel_art (uniformImg 2 3 fun _ => 5) 2 1 4 2).1.pix 0 1 =
        fun _ => 5 :=
  ⟨fun _ _ => rfl, by decide, by decide, by decide, by decide, by decide, by decide,
    pixelArt_uniform (uniformImg 2 3 fun _ => 5) (fun _ => 5) 2 1 4 2
      (fun _ _ => rfl) (by decide) (by decide) (by decide) (by decide) 1 0
      (by decide) (by decide)⟩

/-- Claim C2: each pixel of the display image inside the block corresponding
to pixel-art cell `(x, y)` — the display positions whose back-projection
lands in that cell — has exactly the color of `pixelArt` at `(x, y)`; the
nearest-neighbor upsample never blends across block boundaries, also when a
display dimension was capped and is not an integer multiple of the pixel-art
dimension. -/
theorem display_block_flat (img : Img) (tw th dw dh : ℕ)
    (htw : 0 < tw) (hth : 0 < th) (hdw : 0 < dw) (hdh : 0 < dh)
    (x y i j : ℕ) (hx : x < tw) (hy : y < th)
    (hjlo : x * dw ≤ j * tw) (hjhi : j * tw < (x + 1) * dw)
    (hilo : y * dh ≤ i * th) (hihi : i * th < (y + 1) * dh) :
    (create_perfect_pixel_art img tw th dw dh).2.pix i j =
      (create_perfect_pixel_art img tw th dw dh).1.pix y x := by
  have hj : j * tw / dw = x := Nat.div_eq_of_lt_le hjlo hjhi
  have hi : i * th / dh = y := Nat.div_eq_of_lt_le hilo hihi
  simp only [create_perfect_pixel_art]
  by_cases hc : dw ≠ tw ∨ dh ≠ th
  · rw [if_pos hc]
    show (resizeArea img tw th).pix (min (i * th / dh) (th - 1))
        (min (j * tw / dw) (tw - 1)) = (resizeArea img tw th).pix y x
    rw [hj, hi, min_eq_left (by omega), min_eq_left (by omega)]
  · rw [if_neg hc]
    push_neg at hc
    obtain ⟨hweq, hheq⟩ := hc
    have hjx : j = x := by
      subst hweq
      have h1 : x ≤ j := Nat.le_of_mul_le_mul_right hjlo htw
      have h2 : j < x + 1 := Nat.lt_of_mul_lt_mul_right hjhi
      omega
    have hiy : i = y := by
      subst hheq
      have h1 : y ≤ i := Nat.le_of_mul_le_mul_right hilo hth
      have h2 : i < y + 1 := Nat.lt_of_mul_lt_mul_right hihi
      omega
    rw [hjx, hiy]

theorem display_block_flat_witness :
    0 < 2 ∧ 0 < 2 ∧ 0 < 3 ∧ 0 < 3 ∧ 0 < 2 ∧ 0 < 2 ∧
      0 * 3 ≤ 1 * 2 ∧ 1 * 2 < (0 + 1) * 3 ∧ 0 * 3 ≤ 1 * 2 ∧ 1 * 2 < (0 + 1) * 3 ∧
      (create_perfect_pixel_art (uniformImg 2 2 fun _ => 9) 2 2 3 3).2.pix 1 1 =
        (create_perfect_pixel_art (uniformImg 2 2 fun _ => 9) 2 2 3 3).1.pix 0 0 :=
  ⟨by decide, by decide, by decide, by decide, by decide, by decide,
    by decide, by decide, by decide, by decide,
    display_block_flat (uniformImg 2 2 fun _ => 9) 2 2 3 3
      (by decide) (by decide) (by decide) (by decide) 0 0 1 1
      (by decide) (by decide) (by decide) (by decide) (by decide) (by decide)⟩
